import Mathlib

/-!
Verification of the core game logic of the `mistery` roguelike engine.

The definitions below are a shallow embedding of the Rust sources:
`src/math/point.rs`, `src/math/mod.rs`, `src/core/map.rs`,
`src/systems/combat.rs`, `src/systems/map.rs`, `src/systems/items.rs` and
`src/components/mod.rs`.  Machine integers (`u32`, `i32`) are modelled as
`Nat`/`Int`; the game only ever handles coordinates and stats far below the
overflow range, and none of the verified properties depend on wrapping.
Rust panics (failed `assert!`, out-of-range slice indexing, `unwrap` of
`None`) are modelled by `Option`-valued functions returning `none`.
-/

namespace Mistery

/-- 2D point in the game world (`Point` in `src/math/point.rs`, a pair of
`u32` coordinates). -/
structure Point where
  x : Nat
  y : Nat
deriving DecidableEq, Repr

/-- `Point::translate` (`src/math/point.rs`): returns the point shifted by
`(dx, dy)`.  The Rust function `assert!`s that neither shifted coordinate is
negative, panicking otherwise; the panic is modelled by `none`. -/
def Point.translate (p : Point) (dx dy : Int) : Option Point :=
  if 0 ≤ (p.x : Int) + dx ∧ 0 ≤ (p.y : Int) + dy then
    some ⟨((p.x : Int) + dx).toNat, ((p.y : Int) + dy).toNat⟩
  else
    none

/-- Integer square root, computed by counting the positive squares not
exceeding `n` (an executable formulation that the kernel can evaluate; it
equals `Nat.sqrt` by `isqrt_eq_sqrt` below). -/
def isqrt (n : Nat) : Nat :=
  (List.range (n + 1)).countP fun k => decide ((k + 1) * (k + 1) ≤ n)

/-- Counting the elements of `range m` below `c` yields `min c m`. -/
theorem countP_range_lt (c : Nat) :
    ∀ m : Nat, (List.range m).countP (fun k => decide (k < c)) = min c m := by
  intro m
  induction m with
  | zero => simp
  | succ m ih =>
    rw [List.range_succ, List.countP_append, ih]
    by_cases h : m < c
    · simp [List.countP_cons, h]
      omega
    · simp [List.countP_cons, h]
      omega

/-- The counting formulation computes the integer square root. -/
theorem isqrt_eq_sqrt (n : Nat) : isqrt n = Nat.sqrt n := by
  unfold isqrt
  have h1 : ∀ k ∈ List.range (n + 1),
      (decide ((k + 1) * (k + 1) ≤ n) = true ↔ decide (k < Nat.sqrt n) = true) := by
    intro k _
    rcases Nat.lt_or_ge k (Nat.sqrt n) with h | h
    · have h2 : (k + 1) * (k + 1) ≤ n := Nat.le_sqrt.mp h
      simp [h, h2]
    · have h2 : ¬(k + 1) * (k + 1) ≤ n := fun hc =>
        absurd (Nat.le_sqrt.mpr hc) (by omega)
      simp [h2]
      omega
  rw [List.countP_congr h1, countP_range_lt]
  have := Nat.sqrt_le_self n
  omega

/-- `math::distance_2d` (`src/math/mod.rs`): Pythagorean distance between two
points, rounded down to the nearest integer.  The Rust code computes
`f32::sqrt((dx2 + dy2) as f32).floor() as u32`; for the coordinate ranges the
game uses, the correctly-rounded `f32` square root floors to the exact integer
square root, computed here by `isqrt`. -/
def distance2d (p1 p2 : Point) : Nat :=
  isqrt ((((p2.x : Int) - p1.x).natAbs) ^ 2 + (((p2.y : Int) - p1.y).natAbs) ^ 2)

/-- Chebyshev (chessboard) distance between two points; two distinct points
are 8-neighbor adjacent exactly when this is 1. -/
def chebyshev (p1 p2 : Point) : Nat :=
  max (((p2.x : Int) - p1.x).natAbs) (((p2.y : Int) - p1.y).natAbs)

/-- 8-neighbor adjacency of grid points. -/
def adjacent (p1 p2 : Point) : Prop :=
  chebyshev p1 p2 = 1

instance : DecidablePred fun p : Point × Point => adjacent p.1 p.2 := by
  intro p; unfold adjacent; infer_instance

instance (p1 p2 : Point) : Decidable (adjacent p1 p2) := by
  unfold adjacent; infer_instance

/-- `TileKind` (`src/core/map.rs`). -/
inductive TileKind where
  | Wall
  | Floor
deriving DecidableEq, Repr

/-- `TileKind::is_walkable` (`src/core/map.rs`). -/
def TileKind.is_walkable : TileKind → Bool
  | .Wall => false
  | .Floor => true

/-- `TileKind::is_solid` (`src/core/map.rs`). -/
def TileKind.is_solid : TileKind → Bool
  | .Wall => true
  | .Floor => false

/-- `TileState` (`src/core/map.rs`): internal state of a map tile. -/
structure TileState where
  kind : TileKind
  revealed : Bool
  visible : Bool
  blocked : Bool
deriving DecidableEq, Repr

/-- `WorldMap` (`src/core/map.rs`): a flat tile array indexed by
`y * width + x` (the `rooms` list plays no role in any verified claim and is
omitted). -/
structure WorldMap where
  width : Nat
  height : Nat
  tiles : List TileState
deriving Repr

/-- `WorldMap::pt_to_idx` (`src/core/map.rs`): `(p.y() * self.width + p.x())`.
Note that the computation involves only the width, so an `x` coordinate past
the end of a row wraps into the following row. -/
def WorldMap.pt_to_idx (m : WorldMap) (p : Point) : Nat :=
  p.y * m.width + p.x

/-- `WorldMap::get` (`src/core/map.rs`): `self.tiles.get(self.pt_to_idx(p)).map(|t| t.kind)`. -/
def WorldMap.get (m : WorldMap) (p : Point) : Option TileKind :=
  (m.tiles.get? (m.pt_to_idx p)).map (·.kind)

/-- `WorldMap::revealed` (`src/core/map.rs`). -/
def WorldMap.revealed (m : WorldMap) (p : Point) : Option Bool :=
  (m.tiles.get? (m.pt_to_idx p)).map (·.revealed)

/-- `WorldMap::visible` (`src/core/map.rs`). -/
def WorldMap.visible (m : WorldMap) (p : Point) : Option Bool :=
  (m.tiles.get? (m.pt_to_idx p)).map (·.visible)

/-- `WorldMap::blocked` (`src/core/map.rs`). -/
def WorldMap.blocked (m : WorldMap) (p : Point) : Option Bool :=
  (m.tiles.get? (m.pt_to_idx p)).map (·.blocked)

/-- A fully revealed floor tile, used to build concrete test maps. -/
def floorTile : TileState := ⟨TileKind.Floor, false, false, false⟩

/-- A wall tile (blocked), used to build concrete test maps. -/
def wallTile : TileState := ⟨TileKind.Wall, false, false, true⟩

/-- A concrete 2-by-2 map whose four tiles are all floor. -/
def map2x2 : WorldMap := ⟨2, 2, List.replicate 4 floorTile⟩

/-- The eight neighbor offsets scanned by `WorldMap::get_adjacent_exits`
(`src/core/map.rs`), cardinal directions first, diagonals after — the source
keeps this order deliberately because it shapes the paths found by A*. -/
def exitDeltas : List (Int × Int) :=
  [(0, 1), (1, 0), (0, -1), (-1, 0), (1, 1), (1, -1), (-1, -1), (-1, 1)]

/-- Body of `WorldMap::get_adjacent_exits`: for each offset translate `p` and
keep the neighbor when `self.blocked(p)` matches `Some(false)`.  A failing
`translate` (negative coordinate) panics the whole call, modelled by `none`. -/
def exitsAux (m : WorldMap) (p : Point) : List (Int × Int) → Option (List Point)
  | [] => some []
  | d :: ds =>
    match p.translate d.1 d.2 with
    | none => none
    | some q =>
      match exitsAux m p ds with
      | none => none
      | some rest =>
        if m.blocked q = some false then some (q :: rest) else some rest

/-- `WorldMap::get_adjacent_exits` (`src/core/map.rs`). -/
def getAdjacentExits (m : WorldMap) (p : Point) : Option (List Point) :=
  exitsAux m p exitDeltas

/-- Whether, in the words of the specification, the map has a tile at `q` and
that tile is not blocked (a point outside the `width` by `height` grid has no
tile). -/
def specTileNotBlocked (m : WorldMap) (q : Point) : Bool :=
  if q.x < m.width ∧ q.y < m.height then
    match m.tiles.get? (q.y * m.width + q.x) with
    | some t => !t.blocked
    | none => false
  else false

/-- Written from the specification's words, for comparison with
`getAdjacentExits`: "the subset of the 8 neighbors (cardinal directions
first, diagonals after) that are not blocked". -/
def specAdjacentExits (m : WorldMap) (p : Point) : List Point :=
  exitDeltas.filterMap fun d =>
    let nx := (p.x : Int) + d.1
    let ny := (p.y : Int) + d.2
    if 0 ≤ nx ∧ 0 ≤ ny then
      let q : Point := ⟨nx.toNat, ny.toNat⟩
      if specTileNotBlocked m q then some q else none
    else none

/-- A concrete 3-by-3 map whose nine tiles are all floor. -/
def map3x3 : WorldMap := ⟨3, 3, List.replicate 9 floorTile⟩

/-- One octant transform of `ShadowcastFoV` (`src/core/map.rs`): the four
multipliers `mul.0 .. mul.3` used as `sax = dx*mul.0 + dy*mul.1`,
`say = dx*mul.2 + dy*mul.3`. -/
structure OctantMul where
  m0 : Int
  m1 : Int
  m2 : Int
  m3 : Int
deriving DecidableEq, Repr

/-- The eight columns of `ShadowcastFoV::DIAGONALS_MULTIPLIES`
(`src/core/map.rs`), in the order `run` iterates them. -/
def octantMuls : List OctantMul :=
  [⟨1, 0, 0, 1⟩, ⟨0, 1, 1, 0⟩, ⟨0, -1, 1, 0⟩, ⟨-1, 0, 0, 1⟩,
   ⟨-1, 0, 0, -1⟩, ⟨0, -1, -1, 0⟩, ⟨0, 1, -1, 0⟩, ⟨1, 0, 0, -1⟩]

/-- `HashSet::insert` on the visible set, modelled as a duplicate-free list. -/
def insertPt (p : Point) (l : List Point) : List Point :=
  if p ∈ l then l else p :: l

/-- `self.map.get((ax, ay)).map(|t| t.is_solid()).unwrap_or(true)`: whether
sight is blocked at `(ax, ay)`, treating off-map tiles as opaque
(`src/core/map.rs`, `ShadowcastFoV::cast_light`). -/
def solidOrOffMap (m : WorldMap) (ax ay : Int) : Bool :=
  match m.get ⟨ax.toNat, ay.toNat⟩ with
  | some t => t.is_solid
  | none => true

/-- An exact rational slope value `num / den` with `den ≠ 0` at every use
site.  `cast_light` stores its slopes in `f32`; every slope it ever builds is
`(dx ± 0.5) / (dy ∓ 0.5)`, an exact dyadic-over-odd-halves fraction whose
`f32` comparisons coincide with the exact rational ones at the tiny
magnitudes the game's radii produce, so the model compares the exact values. -/
structure Slope where
  num : Int
  den : Int
deriving DecidableEq, Repr

/-- Strict comparison of two slope fractions by cross-multiplication (both
denominators are odd, hence nonzero). -/
def Slope.lt (s t : Slope) : Bool :=
  (s.num * t.den - t.num * s.den) * (s.den * t.den) < 0

/-- The mutable state threaded through one row scan of `cast_light`:
the `blocked` flag, the current `start` slope, the saved `next_start_slope`,
the visible set, and whether the inner `for dx` loop has hit its `break`. -/
structure FovScan where
  blocked : Bool
  start : Slope
  nextStart : Slope
  vis : List Point
  stop : Bool
deriving Repr

/-- The values `-i ..= 0` taken by `dx` in the inner loop of `cast_light`. -/
def dxRange (i : Int) : List Int :=
  (List.range (i.toNat + 1)).map fun k => -i + (k : Int)

/-- The values `row ..= radius` taken by `i` in the outer loop of
`cast_light`. -/
def rowRange (row radius : Int) : List Int :=
  (List.range ((radius + 1 - row).toNat)).map fun k => row + (k : Int)

/-- One iteration of the inner `for dx` loop of `ShadowcastFoV::cast_light`
(`src/core/map.rs`).  `l_slope = (dx - 0.5)/(dy + 0.5)` and
`r_slope = (dx + 0.5)/(dy - 0.5)` are represented by the exact fractions
`(2*dx - 1)/(2*dy + 1)` and `(2*dx + 1)/(2*dy - 1)`.  `castRec` is the
recursive `cast_light` call made when a wall starts a new shadow. -/
def fovInnerStep (m : WorldMap) (cx cy radius : Int)
    (castRec : Int → Slope → Slope → List Point → List Point)
    (endS : Slope) (mul : OctantMul) (i : Int) (st : FovScan) (dx : Int) : FovScan :=
  if st.stop then st
  else
    let dy : Int := -i
    let lSlope : Slope := ⟨2 * dx - 1, 2 * dy + 1⟩
    let rSlope : Slope := ⟨2 * dx + 1, 2 * dy - 1⟩
    if Slope.lt st.start rSlope then st
    else if Slope.lt lSlope endS then { st with stop := true }
    else
      let sax : Int := dx * mul.m0 + dy * mul.m1
      let say : Int := dx * mul.m2 + dy * mul.m3
      if (sax < 0 ∧ |sax| > cx) ∨ (say < 0 ∧ |say| > cy) then st
      else
        let ax : Int := cx + sax
        let ay : Int := cy + say
        if ax ≥ (m.width : Int) ∨ ay ≥ (m.height : Int) then st
        else
          let vis1 :=
            if dx * dx + dy * dy < radius * radius then
              insertPt ⟨ax.toNat, ay.toNat⟩ st.vis
            else st.vis
          if st.blocked then
            if solidOrOffMap m ax ay then { st with vis := vis1, nextStart := rSlope }
            else { st with vis := vis1, blocked := false, start := st.nextStart }
          else if solidOrOffMap m ax ay then
            let vis2 := castRec (i + 1) st.start lSlope vis1
            { st with vis := vis2, blocked := true, nextStart := rSlope }
          else { st with vis := vis1 }

/-- One full row (`i`) of the outer loop of `cast_light`: run the inner loop
over `dx = -i ..= 0` with a fresh `stop` flag. -/
def fovRow (m : WorldMap) (cx cy radius : Int)
    (castRec : Int → Slope → Slope → List Point → List Point)
    (endS : Slope) (mul : OctantMul) (i : Int) (st : FovScan) : FovScan :=
  (dxRange i).foldl (fovInnerStep m cx cy radius castRec endS mul i)
    { st with stop := false }

/-- The outer `for i in row ..= radius` loop of `cast_light`, which exits as
soon as `blocked` is set at the top of an iteration and finally yields the
visible set. -/
def fovOuterLoop (m : WorldMap) (cx cy radius : Int)
    (castRec : Int → Slope → Slope → List Point → List Point)
    (endS : Slope) (mul : OctantMul) :
    List Int → Bool → Slope → Slope → List Point → List Point
  | [], _, _, _, vis => vis
  | i :: rest, blocked, start, nextStart, vis =>
    if blocked then vis
    else
      let st := fovRow m cx cy radius castRec endS mul i
        ⟨blocked, start, nextStart, vis, false⟩
      fovOuterLoop m cx cy radius castRec endS mul rest
        st.blocked st.start st.nextStart st.vis

/-- `ShadowcastFoV::cast_light` (`src/core/map.rs`), with an explicit `fuel`
bounding the recursion depth (each recursive call strictly increases `row`,
so any fuel above `radius + 1` reproduces the source behavior exactly). -/
def castLight (m : WorldMap) (cx cy radius : Int) (mul : OctantMul) :
    Nat → Int → Slope → Slope → List Point → List Point
  | 0, _, _, _, vis => vis
  | fuel + 1, row, start, endS, vis =>
    if Slope.lt start endS then vis
    else
      fovOuterLoop m cx cy radius
        (fun row2 start2 endS2 vis2 => castLight m cx cy radius mul fuel row2 start2 endS2 vis2)
        endS mul (rowRange row radius) false start start vis
termination_by structural fuel => fuel

/-- `ShadowcastFoV::run` (`src/core/map.rs`): eight octant scans starting at
row 1 with slope cone `(1.0, 0.0)`. -/
def shadowcastRun (m : WorldMap) (x y radius : Nat) : List Point :=
  octantMuls.foldl
    (fun vis mul =>
      castLight m (x : Int) (y : Int) (radius : Int) mul (radius + 2) 1 ⟨1, 1⟩ ⟨0, 1⟩ vis)
    []

/-- A concrete 7-by-7 map whose tiles are all floor. -/
def map7x7 : WorldMap := ⟨7, 7, List.replicate 49 floorTile⟩

/-- A node of the A* search: a reached point, its cost `g` (every edge costs
1), its estimated total cost `f = g + heuristic`, and the path from the start
to the point, stored in reverse (head is the point itself). -/
structure ANode where
  pt : Point
  g : Nat
  f : Nat
  revPath : List Point
deriving Repr

/-- The successor function passed to `pathfinding::prelude::astar` by
`a_star_search` (`src/core/map.rs`): the adjacent exits of the node — except
that a node at `distance_2d == 1` from the goal offers only the goal itself,
so the search can terminate on a blocked goal tile.  A panic inside
`get_adjacent_exits` propagates as `none`. -/
def aStarSuccs (m : WorldMap) (endP pt : Point) : Option (List Point) :=
  if distance2d pt endP = 1 then some [endP] else getAdjacentExits m pt

/-- The heap ordering of the library's `SmallestCostHolder`: smaller
estimated cost first, and among equal estimates the larger known cost first. -/
def betterNode (a b : ANode) : Bool :=
  a.f < b.f || (a.f == b.f && b.g < a.g)

/-- Select the best open node (first one on full ties), returning it and the
remaining open list. -/
def pickMinAux : ANode → List ANode → List ANode → ANode × List ANode
  | best, acc, [] => (best, acc.reverse)
  | best, acc, n :: ns =>
    if betterNode n best then pickMinAux n (best :: acc) ns
    else pickMinAux best (n :: acc) ns

/-- Pop the minimum of the open list, mirroring the library's binary heap. -/
def pickMin : List ANode → Option (ANode × List ANode)
  | [] => none
  | n :: ns => some (pickMinAux n [] ns)

/-- The best cost recorded so far for a point (the `parents` map of the
library, keeping only the cost component, which is all the model needs since
nodes carry their own paths). -/
def lookupG (best : List (Point × Nat)) (p : Point) : Option Nat :=
  (best.find? fun e => e.1 == p).map (·.2)

/-- Record an improved cost for a point. -/
def updateG (best : List (Point × Nat)) (p : Point) (g : Nat) : List (Point × Nat) :=
  best.map fun e => if e.1 == p then (p, g) else e

/-- Handling of one successor `q` of an expanded node `n`: it is pushed (with
cost `g + 1` and estimate `g + 1 + distance_2d` to the goal) when it is new
or strictly improves on its recorded cost, exactly as the library's
`parents.entry` match does. -/
def pushStep (endP : Point) (n : ANode) (ob : List ANode × List (Point × Nat))
    (q : Point) : List ANode × List (Point × Nat) :=
  let ng := n.g + 1
  let node : ANode := ⟨q, ng, ng + distance2d q endP, q :: n.revPath⟩
  match lookupG ob.2 q with
  | some c => if ng < c then (node :: ob.1, updateG ob.2 q ng) else ob
  | none => (node :: ob.1, (q, ng) :: ob.2)

/-- Push all successors of an expanded node. -/
def pushSuccs (endP : Point) (n : ANode) (qs : List Point)
    (st : List ANode × List (Point × Nat)) : List ANode × List (Point × Nat) :=
  qs.foldl (pushStep endP n) st

/-- The main loop of `pathfinding::prelude::astar`, specialized to the
arguments `a_star_search` passes: pop the best open node; if it satisfies the
success predicate (`pt == end`) return its path; if its cost is worse than
the recorded best for its point it is a stale heap entry and is skipped;
otherwise expand its successors.  `fuel` bounds the iteration count (the
soundness theorems hold for every fuel value); an exhausted heap, exhausted
fuel, or a panic in the successor function all yield `none`. -/
def aStarLoop (m : WorldMap) (endP : Point) :
    Nat → List ANode → List (Point × Nat) → Option (List Point)
  | 0, _, _ => none
  | fuel + 1, openL, best =>
    match pickMin openL with
    | none => none
    | some (n, rest) =>
      if n.pt = endP then some n.revPath.reverse
      else
        match lookupG best n.pt with
        | some c =>
          if n.g > c then aStarLoop m endP fuel rest best
          else
            match aStarSuccs m endP n.pt with
            | none => none
            | some qs =>
              let st := pushSuccs endP n qs (rest, best)
              aStarLoop m endP fuel st.1 st.2
        | none =>
          match aStarSuccs m endP n.pt with
          | none => none
          | some qs =>
            let st := pushSuccs endP n qs (rest, best)
            aStarLoop m endP fuel st.1 st.2
termination_by structural fuel => fuel

/-- `map::a_star_search` (`src/core/map.rs`): A* from `start` to `endP` over
`get_adjacent_exits` with uniform edge cost 1 and heuristic `distance_2d`,
returning the path inclusive of both endpoints.  The fuel is far beyond the
number of expansions the bounded grid admits. -/
def aStarSearch (m : WorldMap) (start endP : Point) : Option (List Point) :=
  aStarLoop m endP (((m.width + 2) * (m.height + 2) + 2) ^ 2)
    [⟨start, 0, distance2d start endP, [start]⟩] [(start, 0)]

/-- An 8-by-8 map whose only floor tiles form the diagonal corridor
`(1,1) .. (6,6)`; every other tile is a blocked wall. -/
def mapDiag : WorldMap :=
  ⟨8, 8, (List.range 64).map fun i =>
    if i % 8 = i / 8 ∧ 1 ≤ i / 8 ∧ i / 8 ≤ 6 then floorTile else wallTile⟩

end Mistery

namespace Mistery

/-- C7: the point `(2, 0)` lies outside the bounds of the 2-by-2 map
(`x = 2 ≥ width = 2`), yet every tile accessor returns `some`: the flat index
`0 * 2 + 2 = 2` is still inside the tile array, so the lookup wraps around to
the tile at `(0, 1)`.  The claim states all accessors return `none` for every
out-of-bounds point; the code disagrees (the mutable accessors use the same
`pt_to_idx` computation and wrap identically). -/
theorem c7_out_of_bounds_accessor_wraps :
    2 ≥ map2x2.width ∧
    map2x2.get ⟨2, 0⟩ = some TileKind.Floor ∧
    map2x2.revealed ⟨2, 0⟩ = some false ∧
    map2x2.visible ⟨2, 0⟩ = some false ∧
    map2x2.blocked ⟨2, 0⟩ = some false := by
  decide

/-- If every offset in `ds` keeps both coordinates of `p` nonnegative and the
translated neighbor inside the grid, then `exitsAux` returns exactly the
neighbors the specification describes, in offset order. -/
theorem exitsAux_eq_spec (m : WorldMap) (p : Point)
    (hlen : m.tiles.length = m.width * m.height) :
    ∀ ds : List (Int × Int),
      (∀ d ∈ ds, 0 ≤ (p.x : Int) + d.1 ∧ 0 ≤ (p.y : Int) + d.2 ∧
        ((p.x : Int) + d.1).toNat < m.width ∧ ((p.y : Int) + d.2).toNat < m.height) →
      exitsAux m p ds = some (ds.filterMap fun d =>
        let nx := (p.x : Int) + d.1
        let ny := (p.y : Int) + d.2
        if 0 ≤ nx ∧ 0 ≤ ny then
          let q : Point := ⟨nx.toNat, ny.toNat⟩
          if specTileNotBlocked m q then some q else none
        else none) := by
  intro ds
  induction ds with
  | nil => intro _; rfl
  | cons d ds ih =>
    intro hall
    obtain ⟨hx, hy, hxw, hyh⟩ := hall d (List.mem_cons_self d ds)
    have hrest := ih fun e he => hall e (List.mem_cons_of_mem d he)
    have htr : p.translate d.1 d.2 =
        some ⟨((p.x : Int) + d.1).toNat, ((p.y : Int) + d.2).toNat⟩ := by
      simp [Point.translate, hx, hy]
    have hidx : ((p.y : Int) + d.2).toNat * m.width + ((p.x : Int) + d.1).toNat
        < m.tiles.length := by
      rw [hlen]
      calc ((p.y : Int) + d.2).toNat * m.width + ((p.x : Int) + d.1).toNat
          < ((p.y : Int) + d.2).toNat * m.width + m.width := by omega
        _ = (((p.y : Int) + d.2).toNat + 1) * m.width := by ring
        _ ≤ m.height * m.width := Nat.mul_le_mul_right _ (by omega)
        _ = m.width * m.height := Nat.mul_comm _ _
    obtain ⟨t, ht⟩ : ∃ t,
        m.tiles[((p.y : Int) + d.2).toNat * m.width + ((p.x : Int) + d.1).toNat]? =
          some t :=
      ⟨_, List.getElem?_eq_getElem hidx⟩
    have hblocked : m.blocked ⟨((p.x : Int) + d.1).toNat, ((p.y : Int) + d.2).toNat⟩ =
        some t.blocked := by
      simp [WorldMap.blocked, WorldMap.pt_to_idx, ht]
    have hspec :
        specTileNotBlocked m ⟨((p.x : Int) + d.1).toNat, ((p.y : Int) + d.2).toNat⟩ =
          !t.blocked := by
      simp [specTileNotBlocked, hxw, hyh, ht]
    simp only [exitsAux, htr, hrest, List.filterMap_cons, hx, hy, and_self, if_true,
      hblocked, hspec]
    cases hb : t.blocked with
    | false => simp [hb]
    | true => simp [hb]

/-- C9 counterexample: on the all-floor 3-by-3 map, `get_adjacent_exits` at
the corner `(0, 0)` panics (the very first `translate` of the `(0, -1)`
offset asserts a negative coordinate) instead of returning the subset of
existing unblocked neighbors claimed by the specification. -/
theorem c9_counterexample :
    getAdjacentExits map3x3 ⟨0, 0⟩ ≠ some (specAdjacentExits map3x3 ⟨0, 0⟩) := by
  decide

/-- C9 (amended): for every map whose tile array has the invariant length
`width * height` and every interior point (both coordinates at least 1 and at
least 2 away from the right/top edge, so that all 8 neighbors exist on the
grid), `get_adjacent_exits` returns exactly the subset of the 8 neighboring
points whose tiles are not blocked, cardinal neighbors first and diagonal
neighbors after. -/
theorem c9_adjacent_exits_interior (m : WorldMap) (p : Point)
    (hlen : m.tiles.length = m.width * m.height)
    (hx1 : 1 ≤ p.x) (hy1 : 1 ≤ p.y)
    (hx2 : p.x + 1 < m.width) (hy2 : p.y + 1 < m.height) :
    getAdjacentExits m p = some (specAdjacentExits m p) := by
  unfold getAdjacentExits specAdjacentExits
  exact exitsAux_eq_spec m p hlen exitDeltas (by
    intro d hd
    simp only [exitDeltas, List.mem_cons, List.not_mem_nil, or_false] at hd
    rcases hd with rfl | rfl | rfl | rfl | rfl | rfl | rfl | rfl <;>
      refine ⟨by omega, by omega, by omega, by omega⟩)

/-- C9 witness: the amended statement applied to the all-floor 3-by-3 map at
its center. -/
theorem c9_witness :
    getAdjacentExits map3x3 ⟨1, 1⟩ = some (specAdjacentExits map3x3 ⟨1, 1⟩) :=
  c9_adjacent_exits_interior map3x3 ⟨1, 1⟩ (by decide) (by decide) (by decide)
    (by decide) (by decide)

set_option maxRecDepth 100000 in
/-- C1: on the all-floor 7-by-7 map, a field-of-view run from `(3, 3)` with
radius 3 does not contain the origin tile, even though that tile is walkable
floor and trivially within the radius.  `cast_light` scans rows starting at
`row = 1` with `dy = -i ≤ -1`, so the offset `(0, 0)` is never visited and no
octant ever inserts the origin — contradicting the claim that the origin is
never excluded when reachable and within radius.  (The other half of the
claim, that no tile farther than the radius is included, does hold: insertion
is guarded by `dx*dx + dy*dy < radius*radius` and every octant transform
preserves the squared norm.) -/
theorem c1_origin_never_visible :
    (⟨3, 3⟩ : Point) ∉ shadowcastRun map7x7 3 3 3 ∧
    map7x7.get ⟨3, 3⟩ = some TileKind.Floor ∧
    distance2d ⟨3, 3⟩ ⟨3, 3⟩ ≤ 3 := by
  decide

/-- 8-neighbor adjacency is symmetric. -/
theorem adjacent_symm {p q : Point} (h : adjacent p q) : adjacent q p := by
  unfold adjacent chebyshev at h ⊢
  omega

/-- Triangle inequality for the Chebyshev distance. -/
theorem chebyshev_triangle (a c b : Point) :
    chebyshev a b ≤ chebyshev a c + chebyshev c b := by
  unfold chebyshev
  omega

/-- A chain of 8-adjacent points from `a` to `b` has at least
`chebyshev a b + 1` points. -/
theorem chain_chebyshev_length :
    ∀ l : List Point, List.Chain' adjacent l → ∀ a b : Point,
      l.head? = some a → l.getLast? = some b → chebyshev a b + 1 ≤ l.length := by
  intro l
  induction l with
  | nil => intro _ a b h; simp at h
  | cons x xs ih =>
    intro hchain a b hhead hlast
    cases xs with
    | nil =>
      have hax : a = x := by simpa using hhead.symm
      have hbx : b = x := by simpa using hlast.symm
      have h0 : chebyshev a b = 0 := by rw [hax, hbx]; unfold chebyshev; omega
      simp [h0]
    | cons y ys =>
      rw [List.chain'_cons] at hchain
      have hax : a = x := by simpa using hhead.symm
      have hlast2 : (y :: ys).getLast? = some b := by
        rw [List.getLast?_cons_cons] at hlast; exact hlast
      have hlen := ih hchain.2 y b (by simp) hlast2
      have htri := chebyshev_triangle a y b
      have hxy : chebyshev a y = 1 := by rw [hax]; exact hchain.1
      simp only [List.length_cons] at hlen ⊢
      omega

/-- A successful `translate` by one of the eight exit offsets lands on an
8-adjacent point. -/
theorem translate_delta_adjacent {p q : Point} {d : Int × Int}
    (hd : d ∈ exitDeltas) (ht : p.translate d.1 d.2 = some q) : adjacent p q := by
  simp only [exitDeltas, List.mem_cons, List.not_mem_nil, or_false] at hd
  rcases hd with rfl | rfl | rfl | rfl | rfl | rfl | rfl | rfl <;>
    · simp only [Point.translate] at ht
      split at ht
      · injection ht with h
        subst h
        unfold adjacent chebyshev
        dsimp only
        omega
      · exact absurd ht (by simp)

/-- Every member of a successful `exitsAux` run is the translate of one of
the supplied offsets. -/
theorem exitsAux_mem {m : WorldMap} {p : Point} :
    ∀ {ds : List (Int × Int)} {l : List Point} {q : Point},
      exitsAux m p ds = some l → q ∈ l → ∃ d ∈ ds, p.translate d.1 d.2 = some q := by
  intro ds
  induction ds with
  | nil =>
    intro l q h hq
    simp only [exitsAux, Option.some.injEq] at h
    subst h; simp at hq
  | cons d ds ih =>
    intro l q h hq
    simp only [exitsAux] at h
    cases htr : p.translate d.1 d.2 with
    | none => rw [htr] at h; exact absurd h (by simp)
    | some q2 =>
      rw [htr] at h
      cases hrest : exitsAux m p ds with
      | none => rw [hrest] at h; exact absurd h (by simp)
      | some rest =>
        rw [hrest] at h
        have h2 : (if m.blocked q2 = some false then some (q2 :: rest)
            else some rest) = some l := h
        by_cases hb : m.blocked q2 = some false
        · rw [if_pos hb] at h2
          injection h2 with h2
          subst h2
          rcases List.mem_cons.mp hq with rfl | hmem
          · exact ⟨d, List.mem_cons_self d ds, htr⟩
          · obtain ⟨e, he, hte⟩ := ih hrest hmem
            exact ⟨e, List.mem_cons_of_mem d he, hte⟩
        · rw [if_neg hb] at h2
          injection h2 with h2
          subst h2
          obtain ⟨e, he, hte⟩ := ih hrest hq
          exact ⟨e, List.mem_cons_of_mem d he, hte⟩

/-- `distance_2d = 1` forces 8-adjacency: the squared distance lies in
`[1, 3]`, so both coordinate deltas are at most 1 and not both zero. -/
theorem distance2d_one_adjacent {p q : Point} (h : distance2d p q = 1) :
    adjacent p q := by
  unfold distance2d at h
  rw [isqrt_eq_sqrt] at h
  set a := (((q.x : Int) - p.x).natAbs) with ha
  set b := (((q.y : Int) - p.y).natAbs) with hb
  have h1 : 1 * 1 ≤ a ^ 2 + b ^ 2 := by
    have := Nat.sqrt_le' (a ^ 2 + b ^ 2)
    rw [h] at this; exact this
  have h2 : a ^ 2 + b ^ 2 < 2 * 2 := by
    have := Nat.lt_succ_sqrt' (a ^ 2 + b ^ 2)
    rw [h] at this; exact this
  have haa : a ≤ 1 := by nlinarith
  have hbb : b ≤ 1 := by nlinarith
  have hab : 1 ≤ a + b := by nlinarith
  unfold adjacent chebyshev
  rw [← ha, ← hb]
  omega

/-- Every successor offered to the A* search is 8-adjacent to the expanded
node. -/
theorem aStarSuccs_adjacent {m : WorldMap} {endP pt : Point} {qs : List Point}
    {q : Point} (h : aStarSuccs m endP pt = some qs) (hq : q ∈ qs) :
    adjacent pt q := by
  unfold aStarSuccs at h
  by_cases hd : distance2d pt endP = 1
  · rw [if_pos hd] at h
    injection h with h
    subst h
    rcases List.mem_singleton.mp hq with rfl
    exact distance2d_one_adjacent hd
  · rw [if_neg hd] at h
    obtain ⟨d, hdm, htr⟩ := exitsAux_mem h hq
    exact translate_delta_adjacent hdm htr

/-- A well-formed search node: its reversed path starts (at its head) with
the node's own point, ends with the search's start point `a`, and is a chain
of 8-adjacent points. -/
def goodNode (a : Point) (n : ANode) : Prop :=
  n.revPath.head? = some n.pt ∧ n.revPath.getLast? = some a ∧
    List.Chain' adjacent n.revPath

/-- `pickMin` returns a member of the open list, and the remainder is a
sublist of the open list. -/
theorem pickMinAux_mem :
    ∀ (ds : List ANode) (best : ANode) (acc : List ANode),
      ((pickMinAux best acc ds).1 = best ∨ (pickMinAux best acc ds).1 ∈ ds) ∧
      (∀ x ∈ (pickMinAux best acc ds).2, x ∈ acc ∨ x = best ∨ x ∈ ds) := by
  intro ds
  induction ds with
  | nil =>
    intro best acc
    refine ⟨Or.inl rfl, ?_⟩
    intro x hx
    simp only [pickMinAux, List.mem_reverse] at hx
    exact Or.inl hx
  | cons n ns ih =>
    intro best acc
    simp only [pickMinAux]
    by_cases hbn : betterNode n best = true
    · rw [if_pos hbn]
      obtain ⟨ih1, ih2⟩ := ih n (best :: acc)
      constructor
      · rcases ih1 with h | h
        · exact Or.inr (by rw [h]; exact List.mem_cons_self n ns)
        · exact Or.inr (List.mem_cons_of_mem n h)
      · intro x hx
        rcases ih2 x hx with h | h | h
        · rcases List.mem_cons.mp h with h | h
          · exact Or.inr (Or.inl h)
          · exact Or.inl h
        · exact Or.inr (Or.inr (by rw [h]; exact List.mem_cons_self n ns))
        · exact Or.inr (Or.inr (List.mem_cons_of_mem n h))
    · rw [if_neg hbn]
      obtain ⟨ih1, ih2⟩ := ih best (n :: acc)
      constructor
      · rcases ih1 with h | h
        · exact Or.inl h
        · exact Or.inr (List.mem_cons_of_mem n h)
      · intro x hx
        rcases ih2 x hx with h | h | h
        · rcases List.mem_cons.mp h with h | h
          · exact Or.inr (Or.inr (by rw [h]; exact List.mem_cons_self n ns))
          · exact Or.inl h
        · exact Or.inr (Or.inl h)
        · exact Or.inr (Or.inr (List.mem_cons_of_mem n h))

/-- Membership form of `pickMin`. -/
theorem pickMin_mem {openL : List ANode} {n : ANode} {rest : List ANode}
    (h : pickMin openL = some (n, rest)) :
    n ∈ openL ∧ ∀ x ∈ rest, x ∈ openL := by
  cases openL with
  | nil => exact absurd h (by simp [pickMin])
  | cons m ms =>
    simp only [pickMin, Option.some.injEq] at h
    obtain ⟨h1, h2⟩ := pickMinAux_mem ms m []
    rw [h] at h1 h2
    dsimp only at h1 h2
    constructor
    · rcases h1 with hh | hh
      · exact (by rw [hh]; exact List.mem_cons_self m ms)
      · exact List.mem_cons_of_mem m hh
    · intro x hx
      rcases h2 x hx with hh | hh | hh
      · simp at hh
      · exact (by rw [hh]; exact List.mem_cons_self m ms)
      · exact List.mem_cons_of_mem m hh

/-- Pushing successors preserves well-formedness of every open node. -/
theorem pushSuccs_good {a endP : Point} {n : ANode} (hn : goodNode a n) :
    ∀ (qs : List Point) (st : List ANode × List (Point × Nat)),
      (∀ q ∈ qs, adjacent n.pt q) → (∀ x ∈ st.1, goodNode a x) →
      ∀ x ∈ (pushSuccs endP n qs st).1, goodNode a x := by
  intro qs
  induction qs with
  | nil => intro st _ hst x hx; exact hst x hx
  | cons q qs ih =>
    intro st hadj hst
    simp only [pushSuccs, List.foldl_cons]
    have hnode : goodNode a ⟨q, n.g + 1, n.g + 1 + distance2d q endP, q :: n.revPath⟩ := by
      obtain ⟨hhd, hlast, hchain⟩ := hn
      obtain ⟨t, hrev⟩ : ∃ t, n.revPath = n.pt :: t := by
        cases hrp : n.revPath with
        | nil => rw [hrp] at hhd; simp at hhd
        | cons z t =>
          rw [hrp] at hhd
          simp only [List.head?_cons, Option.some.injEq] at hhd
          exact ⟨t, by rw [hhd]⟩
      refine ⟨by simp, ?_, ?_⟩
      · rw [hrev, List.getLast?_cons_cons, ← hrev]; exact hlast
      · rw [hrev, List.chain'_cons]
        exact ⟨adjacent_symm (hadj q (List.mem_cons_self q qs)), hrev ▸ hchain⟩
    have hadj2 : ∀ r ∈ qs, adjacent n.pt r :=
      fun r hr => hadj r (List.mem_cons_of_mem q hr)
    have hstepgood : ∀ x ∈ (pushStep endP n st q).1, goodNode a x := by
      intro x hx
      simp only [pushStep] at hx
      split at hx
      · split at hx
        · rcases List.mem_cons.mp hx with rfl | hx
          · exact hnode
          · exact hst x hx
        · exact hst x hx
      · rcases List.mem_cons.mp hx with rfl | hx
        · exact hnode
        · exact hst x hx
    exact ih (pushStep endP n st q) hadj2 hstepgood

/-- Unfolding of one A* loop iteration once the popped node is known. -/
theorem aStarLoop_step {m : WorldMap} {endP : Point} {fuel : Nat}
    {openL rest : List ANode} {best : List (Point × Nat)} {n : ANode}
    (hpick : pickMin openL = some (n, rest)) :
    aStarLoop m endP (fuel + 1) openL best =
      (if n.pt = endP then some n.revPath.reverse
       else
        match lookupG best n.pt with
        | some c =>
          if n.g > c then aStarLoop m endP fuel rest best
          else
            match aStarSuccs m endP n.pt with
            | none => none
            | some qs =>
              aStarLoop m endP fuel (pushSuccs endP n qs (rest, best)).1
                (pushSuccs endP n qs (rest, best)).2
        | none =>
          match aStarSuccs m endP n.pt with
          | none => none
          | some qs =>
            aStarLoop m endP fuel (pushSuccs endP n qs (rest, best)).1
              (pushSuccs endP n qs (rest, best)).2) := by
  simp only [aStarLoop]
  rw [hpick]

/-- Soundness of the A* main loop: any returned path runs from the start
point `a` to the goal along 8-adjacent steps. -/
theorem aStarLoop_sound {m : WorldMap} {endP a : Point} :
    ∀ (fuel : Nat) (openL : List ANode) (best : List (Point × Nat))
      (p : List Point),
      (∀ x ∈ openL, goodNode a x) → aStarLoop m endP fuel openL best = some p →
      p.head? = some a ∧ p.getLast? = some endP ∧ List.Chain' adjacent p := by
  intro fuel
  induction fuel with
  | zero => intro openL best p _ h; exact absurd h (by simp [aStarLoop])
  | succ fuel ih =>
    intro openL best p hgood h
    cases hpick : pickMin openL with
    | none =>
      rw [show aStarLoop m endP (fuel + 1) openL best = none by
        simp only [aStarLoop]; rw [hpick]] at h
      exact absurd h (by simp)
    | some nr =>
      obtain ⟨n, rest⟩ := nr
      rw [aStarLoop_step hpick] at h
      obtain ⟨hn, hrest⟩ := pickMin_mem hpick
      have hngood := hgood n hn
      have hrestgood : ∀ x ∈ rest, goodNode a x := fun x hx => hgood x (hrest x hx)
      by_cases hend : n.pt = endP
      · rw [if_pos hend] at h
        injection h with h
        subst h
        obtain ⟨hhd, hlast, hchain⟩ := hngood
        refine ⟨?_, ?_, ?_⟩
        · rw [List.head?_reverse]; exact hlast
        · rw [List.getLast?_reverse, hhd, hend]
        · rw [List.chain'_reverse]
          exact hchain.imp fun x y hxy => adjacent_symm hxy
      · rw [if_neg hend] at h
        have hexpand : ∀ qs, aStarSuccs m endP n.pt = some qs →
            aStarLoop m endP fuel (pushSuccs endP n qs (rest, best)).1
              (pushSuccs endP n qs (rest, best)).2 = some p →
            p.head? = some a ∧ p.getLast? = some endP ∧ List.Chain' adjacent p := by
          intro qs hqs hrec
          refine ih _ _ p ?_ hrec
          exact pushSuccs_good hngood qs (rest, best)
            (fun q hq => aStarSuccs_adjacent hqs hq) hrestgood
        cases hg : lookupG best n.pt with
        | some c =>
          rw [hg] at h
          have h2 : (if n.g > c then aStarLoop m endP fuel rest best
              else
                match aStarSuccs m endP n.pt with
                | none => none
                | some qs =>
                  aStarLoop m endP fuel (pushSuccs endP n qs (rest, best)).1
                    (pushSuccs endP n qs (rest, best)).2) = some p := h
          by_cases hstale : n.g > c
          · rw [if_pos hstale] at h2
            exact ih _ _ p hrestgood h2
          · rw [if_neg hstale] at h2
            cases hqs : aStarSuccs m endP n.pt with
            | none => rw [hqs] at h2; exact absurd h2 (by simp)
            | some qs =>
              rw [hqs] at h2
              exact hexpand qs hqs h2
        | none =>
          rw [hg] at h
          have h2 : (match aStarSuccs m endP n.pt with
              | none => none
              | some qs =>
                aStarLoop m endP fuel (pushSuccs endP n qs (rest, best)).1
                  (pushSuccs endP n qs (rest, best)).2) = some p := h
          cases hqs : aStarSuccs m endP n.pt with
          | none => rw [hqs] at h2; exact absurd h2 (by simp)
          | some qs =>
            rw [hqs] at h2
            exact hexpand qs hqs h2

/-- The unique path through the diagonal corridor of `mapDiag`. -/
def diagPath : List Point :=
  [⟨1, 1⟩, ⟨2, 2⟩, ⟨3, 3⟩, ⟨4, 4⟩, ⟨5, 5⟩, ⟨6, 6⟩]

set_option maxRecDepth 100000 in
/-- C2 counterexample: on the diagonal-corridor map, `a_star_search` from
`(1,1)` to `(6,6)` returns the 6-point diagonal path (the only path the
corridor admits), yet the integer Euclidean distance between the endpoints is
`floor(sqrt(50)) = 7`, so the returned length is NOT at least the Euclidean
distance as the claim states. -/
theorem c2_counterexample :
    aStarSearch mapDiag ⟨1, 1⟩ ⟨6, 6⟩ = some diagPath ∧
    diagPath.length < distance2d ⟨1, 1⟩ ⟨6, 6⟩ := by
  decide

/-- C2 (amended): whenever `a_star_search` returns a path, the path starts
with the start point, ends with the goal point, every consecutive pair of
points in it is 8-neighbor adjacent, and its length is at least the Chebyshev
(chessboard) distance between the endpoints plus one.  (The original claim's
lower bound by the integer Euclidean distance is false for diagonal paths,
where the Euclidean distance exceeds the number of steps.) -/
theorem c2_path_props (m : WorldMap) (a b : Point) (p : List Point)
    (h : aStarSearch m a b = some p) :
    p.head? = some a ∧ p.getLast? = some b ∧ List.Chain' adjacent p ∧
      chebyshev a b + 1 ≤ p.length := by
  unfold aStarSearch at h
  have hgood :
      ∀ x ∈ [({ pt := a, g := 0, f := distance2d a b, revPath := [a] } : ANode)],
        goodNode a x := by
    intro x hx
    rcases List.mem_singleton.mp hx with rfl
    exact ⟨rfl, rfl, List.chain'_singleton a⟩
  obtain ⟨h1, h2, h3⟩ := aStarLoop_sound _ _ _ p hgood h
  exact ⟨h1, h2, h3, chain_chebyshev_length p h3 a b h1 h2⟩

set_option maxRecDepth 100000 in
/-- C2 witness: the amended statement applied to the concrete run on the
diagonal-corridor map. -/
theorem c2_witness :
    diagPath.head? = some ⟨1, 1⟩ ∧ diagPath.getLast? = some ⟨6, 6⟩ ∧
    List.Chain' adjacent diagPath ∧
      chebyshev ⟨1, 1⟩ ⟨6, 6⟩ + 1 ≤ diagPath.length :=
  c2_path_props mapDiag ⟨1, 1⟩ ⟨6, 6⟩ diagPath (by decide)

/-- `CombatStats` (`src/components/mod.rs`): all four fields are `i32`. -/
structure CombatStats where
  hp : Int
  maxHp : Int
  defense : Int
  power : Int
deriving DecidableEq, Repr

/-- `Turn` (`src/systems/combat.rs`); its `Default` is `Turn::Player`. -/
inductive Turn where
  | player
  | others
deriving DecidableEq, Repr

/-- The per-entity state the turn scheduler sees: the `ap` field of
`ActsOnTurns` (`src/components/mod.rs`) and whether the entity carries the
`Player` tag component. -/
structure Actor where
  ap : Nat
  player : Bool
deriving DecidableEq, Repr

/-- `ActsOnTurns::can_act`: `ap > 0`. -/
def canAct (a : Actor) : Bool :=
  decide (0 < a.ap)

/-- `ActsOnTurns::refresh`: `ap = 1`. -/
def refreshActor (a : Actor) : Actor :=
  { a with ap := 1 }

/-- `ActsOnTurns::perform`: consume one ap when available, else fail. -/
def performActor (a : Actor) : Option Actor :=
  if canAct a then some { a with ap := a.ap - 1 } else none

/-- `TurnSystem::run` (`src/systems/combat.rs`): while any entity of the
current turn group can still act, do nothing; once the group is exhausted,
refresh every entity of the other group and flip the turn. -/
def turnRun : Turn × List Actor → Turn × List Actor
  | (Turn.player, actors) =>
    if actors.any (fun a => a.player && canAct a) then (Turn.player, actors)
    else (Turn.others, actors.map fun a => if a.player then a else refreshActor a)
  | (Turn.others, actors) =>
    if actors.any (fun a => !a.player && canAct a) then (Turn.others, actors)
    else (Turn.player, actors.map fun a => if a.player then refreshActor a else a)

/-- The two kinds of events that touch action points during play: an
invocation of `TurnSystem::run`, or some entity successfully calling
`ActsOnTurns::perform` (as `InputDispatcher` does for the player and
`MonsterAI` does for monsters — both are gated only by the entity's own ap). -/
inductive TurnStep : Turn × List Actor → Turn × List Actor → Prop
  | scheduler (s : Turn × List Actor) : TurnStep s (turnRun s)
  | act (t : Turn) (actors : List Actor) (i : Nat) (hi : i < actors.length)
      (h : canAct (actors.get ⟨i, hi⟩) = true) :
      TurnStep (t, actors)
        (t, actors.set i { actors.get ⟨i, hi⟩ with ap := (actors.get ⟨i, hi⟩).ap - 1 })

/-- Reachability under scheduler and act events. -/
def TurnReach : Turn × List Actor → Turn × List Actor → Prop :=
  Relation.ReflTransGen TurnStep

/-- The alternation invariant: every ap budget is at most 1 (so each entity
acts at most once per half-turn), during the player turn every non-player
entity is exhausted (so no non-player may act), and symmetrically during the
others turn. -/
def turnInv : Turn × List Actor → Prop
  | (t, actors) =>
    (∀ a ∈ actors, a.ap ≤ 1) ∧
    (t = Turn.player → ∀ a ∈ actors, a.player = false → a.ap = 0) ∧
    (t = Turn.others → ∀ a ∈ actors, a.player = true → a.ap = 0)

/-- One step preserves the alternation invariant. -/
theorem turnInv_step {s s2 : Turn × List Actor} (hinv : turnInv s)
    (hstep : TurnStep s s2) : turnInv s2 := by
  cases hstep with
  | scheduler s =>
    obtain ⟨t, actors⟩ := s
    obtain ⟨h1, h2, h3⟩ := hinv
    cases t with
    | player =>
      simp only [turnRun]
      by_cases hany : actors.any (fun a => a.player && canAct a) = true
      · rw [if_pos hany]; exact ⟨h1, h2, h3⟩
      · rw [if_neg hany]
        have hexh : ∀ a ∈ actors, a.player = true → a.ap = 0 := by
          intro a ha hp
          rcases List.any_eq_false.mp (Bool.eq_false_iff.mpr hany) a ha with hfalse
          simp only [hp, Bool.true_and, canAct, decide_eq_true_eq] at hfalse
          omega
        refine ⟨?_, ?_, ?_⟩
        · intro a ha
          obtain ⟨b, hb, hba⟩ := List.mem_map.mp ha
          by_cases hbp : b.player = true
          · rw [if_pos hbp] at hba; rw [← hba]; exact h1 b hb
          · rw [if_neg hbp] at hba; rw [← hba]; exact le_refl 1
        · intro hcontra; exact absurd hcontra (by simp)
        · intro _ a ha hp
          obtain ⟨b, hb, hba⟩ := List.mem_map.mp ha
          by_cases hbp : b.player = true
          · rw [if_pos hbp] at hba
            exact hexh a (by rw [← hba]; exact hb) (by rw [← hba]; exact hbp)
          · rw [if_neg hbp] at hba
            rw [← hba] at hp
            simp [refreshActor] at hp
            exact absurd hp hbp
    | others =>
      simp only [turnRun]
      by_cases hany : actors.any (fun a => !a.player && canAct a) = true
      · rw [if_pos hany]; exact ⟨h1, h2, h3⟩
      · rw [if_neg hany]
        have hexh : ∀ a ∈ actors, a.player = false → a.ap = 0 := by
          intro a ha hp
          rcases List.any_eq_false.mp (Bool.eq_false_iff.mpr hany) a ha with hfalse
          simp only [hp, Bool.not_false, Bool.true_and, canAct, decide_eq_true_eq] at hfalse
          omega
        refine ⟨?_, ?_, ?_⟩
        · intro a ha
          obtain ⟨b, hb, hba⟩ := List.mem_map.mp ha
          by_cases hbp : b.player = true
          · rw [if_pos hbp] at hba; rw [← hba]; exact le_refl 1
          · rw [if_neg hbp] at hba; rw [← hba]; exact h1 b hb
        · intro _ a ha hp
          obtain ⟨b, hb, hba⟩ := List.mem_map.mp ha
          by_cases hbp : b.player = true
          · rw [if_pos hbp] at hba
            rw [← hba] at hp
            simp [refreshActor] at hp
            exact absurd hp (by simp [hbp])
          · rw [if_neg hbp] at hba
            exact hexh a (by rw [← hba]; exact hb)
              (by rw [← hba]; exact Bool.eq_false_iff.mpr hbp)
        · intro hcontra; exact absurd hcontra (by simp)
  | act t actors i hi h =>
    obtain ⟨h1, h2, h3⟩ := hinv
    have hold : actors.get ⟨i, hi⟩ ∈ actors := List.get_mem actors i hi
    have hv : ({ actors.get ⟨i, hi⟩ with ap := (actors.get ⟨i, hi⟩).ap - 1 } : Actor).ap
        = (actors.get ⟨i, hi⟩).ap - 1 := rfl
    have hvp :
        ({ actors.get ⟨i, hi⟩ with ap := (actors.get ⟨i, hi⟩).ap - 1 } : Actor).player
        = (actors.get ⟨i, hi⟩).player := rfl
    refine ⟨?_, ?_, ?_⟩
    · intro a ha
      rcases List.mem_or_eq_of_mem_set ha with hmem | heq
      · exact h1 a hmem
      · rw [heq, hv]; have := h1 _ hold; omega
    · intro ht a ha hp
      rcases List.mem_or_eq_of_mem_set ha with hmem | heq
      · exact h2 ht a hmem hp
      · rw [heq] at hp ⊢
        rw [hvp] at hp
        rw [hv]
        have := h2 ht _ hold hp
        omega
    · intro ht a ha hp
      rcases List.mem_or_eq_of_mem_set ha with hmem | heq
      · exact h3 ht a hmem hp
      · rw [heq] at hp ⊢
        rw [hvp] at hp
        rw [hv]
        have := h3 ht _ hold hp
        omega

/-- The player-group any-check of `TurnSystem::run` is false exactly when
every player-group entity is out of action points (vacuously so for an empty
group). -/
theorem any_player_canAct_false {actors : List Actor} :
    actors.any (fun a => a.player && canAct a) = false ↔
      ∀ a ∈ actors, a.player = true → a.ap = 0 := by
  rw [List.any_eq_false]
  constructor
  · intro h a ha hp
    have h2 := h a ha
    simp only [hp, Bool.true_and, canAct, decide_eq_true_eq] at h2
    omega
  · intro h a ha
    by_cases hp : a.player = true
    · have h2 := h a ha hp
      simp [hp, canAct, h2]
    · simp [Bool.eq_false_iff.mpr hp]

/-- The non-player-group any-check of `TurnSystem::run` is false exactly when
every non-player entity is out of action points. -/
theorem any_others_canAct_false {actors : List Actor} :
    actors.any (fun a => !a.player && canAct a) = false ↔
      ∀ a ∈ actors, a.player = false → a.ap = 0 := by
  rw [List.any_eq_false]
  constructor
  · intro h a ha hp
    have h2 := h a ha
    simp only [hp, Bool.not_false, Bool.true_and, canAct, decide_eq_true_eq] at h2
    omega
  · intro h a ha
    by_cases hp : a.player = true
    · simp [hp]
    · have hfp : a.player = false := Bool.eq_false_iff.mpr hp
      have h2 := h a ha hfp
      simp [hfp, canAct, h2]

/-- C3: starting from the player turn with every actor's ap at its spawn
default of 0, every state reachable through scheduler invocations and
successful `perform()` calls satisfies the alternation invariant: all ap
budgets are at most 1 (each refreshed entity acts exactly once per
half-turn), during the player turn every non-player entity has 0 ap (so no
non-player may act before the flip), and symmetrically during the others
turn.  Moreover the scheduler flips the turn exactly when the current group —
including a group with zero members, for which the any-check is vacuously
false — is exhausted, and on flipping it refreshes every entity of the other
group to exactly 1 ap. -/
theorem c3_turn_alternation (actors0 : List Actor)
    (h0 : ∀ a ∈ actors0, a.ap = 0) (s : Turn × List Actor)
    (hreach : TurnReach (Turn.player, actors0) s) :
    turnInv s ∧
    (∀ actors : List Actor,
      ((turnRun (Turn.player, actors)).1 = Turn.others ↔
        ∀ a ∈ actors, a.player = true → a.ap = 0) ∧
      ((turnRun (Turn.others, actors)).1 = Turn.player ↔
        ∀ a ∈ actors, a.player = false → a.ap = 0)) ∧
    (∀ actors : List Actor, (∀ a ∈ actors, a.player = true → a.ap = 0) →
      ∀ a ∈ (turnRun (Turn.player, actors)).2, a.player = false → a.ap = 1) ∧
    (∀ actors : List Actor, (∀ a ∈ actors, a.player = false → a.ap = 0) →
      ∀ a ∈ (turnRun (Turn.others, actors)).2, a.player = true → a.ap = 1) := by
  refine ⟨?_, ?_, ?_, ?_⟩
  · induction hreach with
    | refl =>
      refine ⟨fun a ha => by rw [h0 a ha]; omega, fun _ a ha _ => h0 a ha,
        fun ht => absurd ht (by simp)⟩
    | tail hab hbc ih => exact turnInv_step ih hbc
  · intro actors
    constructor
    · simp only [turnRun]
      by_cases hany : actors.any (fun a => a.player && canAct a) = true
      · rw [if_pos hany]
        constructor
        · intro hcontra; exact absurd hcontra (by simp)
        · intro hall
          have h2 := any_player_canAct_false.mpr hall
          rw [h2] at hany
          exact absurd hany (by simp)
      · rw [if_neg hany]
        exact iff_of_true rfl (any_player_canAct_false.mp (Bool.eq_false_iff.mpr hany))
    · simp only [turnRun]
      by_cases hany : actors.any (fun a => !a.player && canAct a) = true
      · rw [if_pos hany]
        constructor
        · intro hcontra; exact absurd hcontra (by simp)
        · intro hall
          have h2 := any_others_canAct_false.mpr hall
          rw [h2] at hany
          exact absurd hany (by simp)
      · rw [if_neg hany]
        exact iff_of_true rfl (any_others_canAct_false.mp (Bool.eq_false_iff.mpr hany))
  · intro actors hall
    have hany : ¬(actors.any (fun a => a.player && canAct a) = true) := by
      rw [any_player_canAct_false.mpr hall]; simp
    simp only [turnRun, if_neg hany]
    intro a ha hp
    obtain ⟨b, hb, hba⟩ := List.mem_map.mp ha
    by_cases hbp : b.player = true
    · rw [if_pos hbp] at hba
      rw [← hba] at hp
      exact absurd hp (by simp [hbp])
    · rw [if_neg hbp] at hba
      rw [← hba]
      rfl
  · intro actors hall
    have hany : ¬(actors.any (fun a => !a.player && canAct a) = true) := by
      rw [any_others_canAct_false.mpr hall]; simp
    simp only [turnRun, if_neg hany]
    intro a ha hp
    obtain ⟨b, hb, hba⟩ := List.mem_map.mp ha
    by_cases hbp : b.player = true
    · rw [if_pos hbp] at hba
      rw [← hba]
      rfl
    · rw [if_neg hbp] at hba
      rw [← hba] at hp
      exact absurd hp (by simp [Bool.eq_false_iff.mpr hbp])

/-- C3 witness: the invariant after one scheduler invocation on a concrete
two-entity world (one player, one monster, both at the spawn default of 0
ap). -/
theorem c3_witness :
    turnInv (turnRun (Turn.player, [⟨0, true⟩, ⟨0, false⟩])) :=
  (c3_turn_alternation [⟨0, true⟩, ⟨0, false⟩] (by decide)
    (turnRun (Turn.player, [⟨0, true⟩, ⟨0, false⟩]))
    (Relation.ReflTransGen.single (TurnStep.scheduler _))).1

/-- The world state seen by `MeleeCombatResolver` (`src/systems/combat.rs`):
the `Name` and `CombatStats` storages, the `SuffersDamage` storage it writes
through `SuffersDamage::damage`, and the combat log.  The drained
`TargetedForMelee` storage is passed to `meleeRun` as an explicit list of
`(defender, attackers)` pairs. -/
structure MeleeWorld where
  names : Nat → Option String
  stats : Nat → Option CombatStats
  damage : Nat → Option Nat
  log : List String

/-- `SuffersDamage::damage` (`src/components/mod.rs`): get-or-insert-default
on the defender's entry, then add `amount` to its total. -/
def suffersDamageAdd (damage : Nat → Option Nat) (who : Nat) (amount : Nat) :
    Nat → Option Nat :=
  fun e => if e = who then some ((damage who).getD 0 + amount) else damage e

/-- The inner attacker loop of `MeleeCombatResolver::run`
(`src/systems/combat.rs`): for each attacker, its `Name` and `CombatStats`
are fetched with `.unwrap()` (a missing one panics, modelled by `none`); the
damage is `max(0, attacker.power - defender.defense)`; a positive damage is
accumulated onto the defender and logged as a hit, a zero damage only logs a
"cannot hit" line. -/
def meleeAttackers (defender : Nat) (defName : String) (defStats : CombatStats) :
    List Nat → MeleeWorld → Option MeleeWorld
  | [], w => some w
  | atk :: rest, w =>
    match w.names atk, w.stats atk with
    | some atkName, some atkStats =>
      let dmg : Int := max 0 (atkStats.power - defStats.defense)
      if 0 < dmg then
        meleeAttackers defender defName defStats rest
          { w with
            log := w.log ++
              [atkName ++ " hits " ++ defName ++ " for " ++ toString dmg ++ " hp."],
            damage := suffersDamageAdd w.damage defender dmg.toNat }
      else
        meleeAttackers defender defName defStats rest
          { w with log := w.log ++ [atkName ++ " cannot hit " ++ defName ++ "."] }
    | _, _ => none

/-- `MeleeCombatResolver::run` (`src/systems/combat.rs`): the join over the
drained `TargetedForMelee` storage processes only defenders that carry both a
`Name` and `CombatStats`; the rest are silently dropped (their melee target
component is still consumed by the drain). -/
def meleeRun : List (Nat × List Nat) → MeleeWorld → Option MeleeWorld
  | [], w => some w
  | (d, atks) :: rest, w =>
    match w.names d, w.stats d with
    | some dn, some ds =>
      match meleeAttackers d dn ds atks w with
      | none => none
      | some w2 => meleeRun rest w2
    | _, _ => meleeRun rest w

/-- The damage one attacker `x` deals to a defender with stats `ds`:
`max(0, power - defense)`, as a natural number. -/
def attackDamage (stats : Nat → Option CombatStats) (ds : CombatStats) (x : Nat) : Nat :=
  (max 0 (((stats x).getD ⟨0, 0, 0, 0⟩).power - ds.defense)).toNat

/-- The total damage a list of attackers deals to a defender with stats
`ds`. -/
def totalDamage (stats : Nat → Option CombatStats) (ds : CombatStats)
    (atks : List Nat) : Nat :=
  (atks.map (attackDamage stats ds)).sum

/-- Behavior of the attacker loop: it succeeds whenever every attacker has a
`Name` and `CombatStats`, leaves the name/stat storages untouched, upserts
exactly the sum of the positive per-attacker damages onto the defender (and
nothing at all when every hit deals zero), only appends to the log, and logs
a "cannot hit" line for every zero-damage attacker. -/
theorem meleeAttackers_spec (d : Nat) (dn : String) (ds : CombatStats) :
    ∀ (atks : List Nat) (w : MeleeWorld),
      (∀ x ∈ atks, (w.names x).isSome ∧ (w.stats x).isSome) →
      ∃ w2, meleeAttackers d dn ds atks w = some w2 ∧
        w2.names = w.names ∧ w2.stats = w.stats ∧
        (∀ e, e ≠ d → w2.damage e = w.damage e) ∧
        (w2.damage d =
          if totalDamage w.stats ds atks = 0 then w.damage d
          else some ((w.damage d).getD 0 + totalDamage w.stats ds atks)) ∧
        (∃ ext, w2.log = w.log ++ ext) ∧
        (∀ x ∈ atks, ∀ nm, w.names x = some nm → attackDamage w.stats ds x = 0 →
          (nm ++ " cannot hit " ++ dn ++ ".") ∈ w2.log) := by
  intro atks
  induction atks with
  | nil =>
    intro w _
    refine ⟨w, rfl, rfl, rfl, fun e _ => rfl, ?_, ⟨[], (List.append_nil w.log).symm⟩,
      fun x hx => absurd hx (List.not_mem_nil x)⟩
    simp [totalDamage]
  | cons x rest ih =>
    intro w ha
    obtain ⟨hn, hs⟩ := ha x (List.mem_cons_self x rest)
    obtain ⟨nm0, hnm0⟩ := Option.isSome_iff_exists.mp hn
    obtain ⟨st0, hst0⟩ := Option.isSome_iff_exists.mp hs
    have hdx : attackDamage w.stats ds x = (max 0 (st0.power - ds.defense)).toNat := by
      simp [attackDamage, hst0]
    have htot : totalDamage w.stats ds (x :: rest) =
        attackDamage w.stats ds x + totalDamage w.stats ds rest := by
      simp [totalDamage]
    simp only [meleeAttackers, hnm0, hst0]
    by_cases hpos : (0 : Int) < max 0 (st0.power - ds.defense)
    · rw [if_pos hpos]
      set w1 : MeleeWorld :=
        { w with
          log := w.log ++
            [nm0 ++ " hits " ++ dn ++ " for " ++
              toString (max 0 (st0.power - ds.defense)) ++ " hp."],
          damage := suffersDamageAdd w.damage d
            (max 0 (st0.power - ds.defense)).toNat } with hw1
      have ha1 : ∀ y ∈ rest, (w1.names y).isSome ∧ (w1.stats y).isSome :=
        fun y hy => ha y (List.mem_cons_of_mem x hy)
      obtain ⟨w2, hrun, hnames, hstats, hoth, hdmg, ⟨ext, hlog⟩, hmiss⟩ := ih w1 ha1
      have hw1names : w1.names = w.names := rfl
      have hw1stats : w1.stats = w.stats := rfl
      have hw1log : w1.log = w.log ++
          [nm0 ++ " hits " ++ dn ++ " for " ++
            toString (max 0 (st0.power - ds.defense)) ++ " hp."] := rfl
      have hw1dmg : w1.damage = suffersDamageAdd w.damage d
          (max 0 (st0.power - ds.defense)).toNat := rfl
      have hdxpos : 0 < attackDamage w.stats ds x := by
        rw [hdx]; omega
      refine ⟨w2, hrun, by rw [hnames, hw1names], by rw [hstats, hw1stats], ?_, ?_, ?_, ?_⟩
      · intro e he
        rw [hoth e he, hw1dmg]
        simp [suffersDamageAdd, he]
      · rw [hdmg, hw1stats, htot]
        have hd1 : w1.damage d =
            some ((w.damage d).getD 0 + attackDamage w.stats ds x) := by
          rw [hw1dmg]
          simp [suffersDamageAdd, hdx]
        by_cases hr0 : totalDamage w.stats ds rest = 0
        · rw [if_pos hr0, hd1, if_neg (by omega), hr0]
          simp
        · rw [if_neg hr0, if_neg (by omega), hd1]
          simp only [Option.getD_some]
          rw [Nat.add_assoc]
      · exact ⟨_, by rw [hlog, hw1log, List.append_assoc]⟩
      · intro y hy nm hynm hy0
        rcases List.mem_cons.mp hy with rfl | hyr
        · exact absurd hy0 (by omega)
        · exact hmiss y hyr nm (by rw [hw1names]; exact hynm) (by rw [hw1stats]; exact hy0)
    · rw [if_neg hpos]
      have hzero : max 0 (st0.power - ds.defense) = 0 := by omega
      have hdx0 : attackDamage w.stats ds x = 0 := by rw [hdx, hzero]; rfl
      set w1 : MeleeWorld :=
        { w with log := w.log ++ [nm0 ++ " cannot hit " ++ dn ++ "."] } with hw1
      have ha1 : ∀ y ∈ rest, (w1.names y).isSome ∧ (w1.stats y).isSome :=
        fun y hy => ha y (List.mem_cons_of_mem x hy)
      obtain ⟨w2, hrun, hnames, hstats, hoth, hdmg, ⟨ext, hlog⟩, hmiss⟩ := ih w1 ha1
      have hw1names : w1.names = w.names := rfl
      have hw1stats : w1.stats = w.stats := rfl
      have hw1dmg : w1.damage = w.damage := rfl
      have hw1log : w1.log = w.log ++ [nm0 ++ " cannot hit " ++ dn ++ "."] := rfl
      refine ⟨w2, hrun, by rw [hnames, hw1names], by rw [hstats, hw1stats], ?_, ?_, ?_, ?_⟩
      · intro e he
        rw [hoth e he, hw1dmg]
      · rw [hdmg, hw1stats, htot, hdx0, hw1dmg]
        simp
      · exact ⟨_, by rw [hlog, hw1log, List.append_assoc]⟩
      · intro y hy nm hynm hy0
        rcases List.mem_cons.mp hy with rfl | hyr
        · have hnmeq : nm = nm0 := by
            rw [hnm0] at hynm
            injection hynm with h
            exact h.symm
          rw [hnmeq, hlog, hw1log]
          simp
        · exact hmiss y hyr nm (by rw [hw1names]; exact hynm) (by rw [hw1stats]; exact hy0)

/-- C4: for a drained melee-target relationship whose defender has a `Name`
and `CombatStats` and whose attackers all do, the resolver deals each
attacker-defender pair `max(0, attacker.power - defender.defense)` damage:
the positive amounts are accumulated (upsert-add) into the defender's
pending-damage entry — which is left entirely untouched (in particular never
created) when every hit deals zero — and every zero-damage pair produces a
"cannot hit" log line instead. -/
theorem c4_melee_damage (w : MeleeWorld) (d : Nat) (atks : List Nat)
    (dn : String) (ds : CombatStats)
    (hdn : w.names d = some dn) (hds : w.stats d = some ds)
    (ha : ∀ x ∈ atks, (w.names x).isSome ∧ (w.stats x).isSome) :
    ∃ w2, meleeRun [(d, atks)] w = some w2 ∧
      (∀ e, e ≠ d → w2.damage e = w.damage e) ∧
      (w2.damage d =
        if totalDamage w.stats ds atks = 0 then w.damage d
        else some ((w.damage d).getD 0 + totalDamage w.stats ds atks)) ∧
      (∀ x ∈ atks, ∀ nm, w.names x = some nm → attackDamage w.stats ds x = 0 →
        (nm ++ " cannot hit " ++ dn ++ ".") ∈ w2.log) := by
  obtain ⟨w2, hrun, _, _, hoth, hdmg, _, hmiss⟩ := meleeAttackers_spec d dn ds atks w ha
  refine ⟨w2, ?_, hoth, hdmg, hmiss⟩
  simp only [meleeRun, hdn, hds, hrun]

/-- A concrete melee scenario: defender 0 ("Hero", defense 2), attacker 1
("Orc", power 5, so it deals 3), attacker 2 ("Goblin", power 2, so it deals
0). -/
def meleeExampleWorld : MeleeWorld :=
  { names := fun e =>
      if e = 0 then some "Hero"
      else if e = 1 then some "Orc"
      else if e = 2 then some "Goblin"
      else none,
    stats := fun e =>
      if e = 0 then some ⟨30, 30, 2, 5⟩
      else if e = 1 then some ⟨16, 16, 1, 5⟩
      else if e = 2 then some ⟨16, 16, 1, 2⟩
      else none,
    damage := fun _ => none,
    log := [] }

/-- C4 witness: on the concrete scenario the resolver accumulates exactly
`max(0, 5 - 2) = 3` pending damage on the defender and logs that the
power-2 attacker cannot hit. -/
theorem c4_witness :
    ∃ w2, meleeRun [(0, [1, 2])] meleeExampleWorld = some w2 ∧
      w2.damage 0 = some 3 ∧ ("Goblin cannot hit Hero." ∈ w2.log) := by
  obtain ⟨w2, hrun, hoth, hdmg, hmiss⟩ :=
    c4_melee_damage meleeExampleWorld 0 [1, 2] "Hero" ⟨30, 30, 2, 5⟩ rfl rfl
      (by decide)
  refine ⟨w2, hrun, ?_, ?_⟩
  · rw [hdmg]
    rfl
  · exact hmiss 2 (by decide) "Goblin" rfl (by decide)

/-- A world whose defender 0 is fully equipped but whose attacker 1 carries a
`Name` and no `CombatStats`. -/
def meleeNoStatsWorld : MeleeWorld :=
  { names := fun e =>
      if e = 0 then some "Hero" else if e = 1 then some "Orc" else none,
    stats := fun e => if e = 0 then some ⟨30, 30, 2, 5⟩ else none,
    damage := fun _ => none,
    log := [] }

/-- C8 counterexample: when the attacker of a drained melee-target
relationship lacks `CombatStats`, the resolver does not silently skip it —
the `combat_stats.get(*attacker).unwrap()` call panics and crashes the tick
(modelled as `none`). -/
theorem c8_counterexample : meleeRun [(0, [1])] meleeNoStatsWorld = none := rfl

/-- C8 (amended): the join of the melee resolver silently skips a *defender*
that lacks `Name` or `CombatStats` — the run succeeds and the world is left
completely unchanged for that relationship; *attackers*, by contrast, are
fetched with `unwrap()`, and an attacker missing either component panics the
tick (as the counterexample shows). -/
theorem c8_defender_skipped (w : MeleeWorld) (d : Nat) (atks : List Nat)
    (h : w.names d = none ∨ w.stats d = none) :
    meleeRun [(d, atks)] w = some w := by
  rcases h with h | h
  · cases hs : w.stats d <;> simp [meleeRun, h, hs]
  · cases hn : w.names d <;> simp [meleeRun, h, hn]

/-- C8 witness: a drained relationship whose defender (entity 1) has a name
but no combat stats leaves the world untouched without crashing. -/
theorem c8_witness :
    meleeRun [(1, [0])] meleeNoStatsWorld = some meleeNoStatsWorld :=
  c8_defender_skipped meleeNoStatsWorld 1 [0] (Or.inr rfl)

/-- The world state seen by `DamageResolver` (`src/systems/combat.rs`): the
`Name` and `CombatStats` storages, liveness of every entity (deletion via
`entities.delete`), and the combat log.  The drained `SuffersDamage` storage
is passed to `damageRun` as an explicit `(entity, damage)` list. -/
structure DamageWorld where
  names : Nat → Option String
  stats : Nat → Option CombatStats
  alive : Nat → Bool
  log : List String

/-- `DamageResolver::run` (`src/systems/combat.rs`): for every drained
pending-damage entry whose entity carries a `Name` and `CombatStats`
(entities outside the join are silently skipped, their pending damage
discarded by the drain), subtract the damage from its hp; if the result is
`≤ 0`, log the death and delete the entity. -/
def damageRun : List (Nat × Nat) → DamageWorld → DamageWorld
  | [], w => w
  | (e, dmg) :: rest, w =>
    match w.names e, w.stats e with
    | some nm, some st =>
      let st2 : CombatStats := { st with hp := st.hp - dmg }
      if st2.hp ≤ 0 then
        damageRun rest
          { w with
            stats := fun x => if x = e then some st2 else w.stats x,
            log := w.log ++ [nm ++ " is dead."],
            alive := fun x => if x = e then false else w.alive x }
      else
        damageRun rest
          { w with stats := fun x => if x = e then some st2 else w.stats x }
    | _, _ => damageRun rest w

/-- Unfolding of one resolver iteration when the entity is in the join. -/
theorem damageRun_cons (x d0 : Nat) (rest : List (Nat × Nat)) (w : DamageWorld)
    (nm : String) (st : CombatStats)
    (hn : w.names x = some nm) (hs : w.stats x = some st) :
    damageRun ((x, d0) :: rest) w =
      if st.hp - (d0 : Int) ≤ 0 then
        damageRun rest
          { w with
            stats := fun y =>
              if y = x then some { st with hp := st.hp - d0 } else w.stats y,
            log := w.log ++ [nm ++ " is dead."],
            alive := fun y => if y = x then false else w.alive y }
      else
        damageRun rest
          { w with
            stats := fun y =>
              if y = x then some { st with hp := st.hp - d0 } else w.stats y } := by
  simp only [damageRun, hn, hs]

/-- Unfolding of one resolver iteration when the entity lacks a joined
component: the drained entry is discarded with no effect. -/
theorem damageRun_cons_skip (x d0 : Nat) (rest : List (Nat × Nat))
    (w : DamageWorld) (h : w.names x = none ∨ w.stats x = none) :
    damageRun ((x, d0) :: rest) w = damageRun rest w := by
  rcases h with h | h
  · cases hs : w.stats x <;> simp [damageRun, h, hs]
  · cases hn : w.names x <;> simp [damageRun, h, hn]

/-- Entities never mentioned in the drained list keep their stats and
liveness, and the name storage is never modified. -/
theorem damageRun_untouched :
    ∀ (L : List (Nat × Nat)) (w : DamageWorld) (e : Nat),
      e ∉ L.map Prod.fst →
      (damageRun L w).names = w.names ∧
      (damageRun L w).stats e = w.stats e ∧
      (damageRun L w).alive e = w.alive e := by
  intro L
  induction L with
  | nil => intro w e _; exact ⟨rfl, rfl, rfl⟩
  | cons hd rest ih =>
    intro w e he
    obtain ⟨x, d0⟩ := hd
    simp only [List.map_cons, List.mem_cons] at he
    push_neg at he
    obtain ⟨hxe, her⟩ := he
    cases hn : w.names x with
    | none => rw [damageRun_cons_skip x d0 rest w (Or.inl hn)]; exact ih w e her
    | some nm =>
      cases hs : w.stats x with
      | none => rw [damageRun_cons_skip x d0 rest w (Or.inr hs)]; exact ih w e her
      | some st =>
        rw [damageRun_cons x d0 rest w nm st hn hs]
        by_cases hdead : st.hp - (d0 : Int) ≤ 0
        · rw [if_pos hdead]
          obtain ⟨i1, i2, i3⟩ := ih _ e her
          refine ⟨i1, ?_, ?_⟩
          · rw [i2]; simp [hxe]
          · rw [i3]; simp [hxe]
        · rw [if_neg hdead]
          obtain ⟨i1, i2, i3⟩ := ih _ e her
          exact ⟨i1, by rw [i2]; simp [hxe], i3⟩

/-- A world with an anonymous entity 0 (combat stats hp 3, no `Name`). -/
def noNameDamageWorld : DamageWorld :=
  { names := fun _ => none,
    stats := fun e => if e = 0 then some ⟨3, 16, 1, 4⟩ else none,
    alive := fun _ => true,
    log := [] }

/-- C5 counterexample: entity 0 has combat stats hp 3 and an accumulated
pending damage of 5 drained by the resolver, yet — because the resolver's
join also requires a `Name`, which this entity lacks — its hp is not reduced
and it is not deleted; the claim says such an entity is deleted. -/
theorem c5_counterexample :
    (damageRun [(0, 5)] noNameDamageWorld).stats 0 = some ⟨3, 16, 1, 4⟩ ∧
    (damageRun [(0, 5)] noNameDamageWorld).alive 0 = true :=
  ⟨rfl, rfl⟩

/-- C5 (amended): for every entity with a `Name`, combat stats, and an
accumulated pending damage `d` drained by the damage resolver (each entity
appearing once, as a component store guarantees), `d` is subtracted from its
current hp; if the resulting hp is ≤ 0 the entity is deleted, otherwise it
survives with hp reduced by exactly `d`. -/
theorem c5_damage_resolution :
    ∀ (L : List (Nat × Nat)) (w : DamageWorld),
      (L.map Prod.fst).Nodup →
      ∀ (e dmg : Nat), (e, dmg) ∈ L →
      ∀ (nm : String) (st : CombatStats),
        w.names e = some nm → w.stats e = some st →
        (damageRun L w).stats e = some { st with hp := st.hp - dmg } ∧
        ((damageRun L w).alive e =
          if st.hp - (dmg : Int) ≤ 0 then false else w.alive e) := by
  intro L
  induction L with
  | nil => intro w _ e dmg he; exact absurd he (List.not_mem_nil _)
  | cons hd rest ih =>
    intro w huniq e dmg he nm st hn hs
    obtain ⟨x, d0⟩ := hd
    rw [List.map_cons, List.nodup_cons] at huniq
    obtain ⟨hxrest, hrestuniq⟩ := huniq
    rcases List.mem_cons.mp he with heq | her
    · injection heq with hx hd0
      subst hx; subst hd0
      rw [damageRun_cons e dmg rest w nm st hn hs]
      have hnotin : e ∉ rest.map Prod.fst := hxrest
      by_cases hdead : st.hp - (dmg : Int) ≤ 0
      · rw [if_pos hdead]
        obtain ⟨_, u2, u3⟩ := damageRun_untouched rest _ e hnotin
        refine ⟨by rw [u2]; simp, ?_⟩
        rw [u3, if_pos hdead]
        simp
      · rw [if_neg hdead]
        obtain ⟨_, u2, u3⟩ := damageRun_untouched rest _ e hnotin
        refine ⟨by rw [u2]; simp, ?_⟩
        rw [u3, if_neg hdead]
    · have hxe : ¬(e = x) := by
        intro hcontra
        apply hxrest
        rw [← hcontra]
        exact List.mem_map.mpr ⟨(e, dmg), her, rfl⟩
      cases hn2 : w.names x with
      | none =>
        rw [damageRun_cons_skip x d0 rest w (Or.inl hn2)]
        exact ih w hrestuniq e dmg her nm st hn hs
      | some nm2 =>
        cases hs2 : w.stats x with
        | none =>
          rw [damageRun_cons_skip x d0 rest w (Or.inr hs2)]
          exact ih w hrestuniq e dmg her nm st hn hs
        | some st2 =>
          rw [damageRun_cons x d0 rest w nm2 st2 hn2 hs2]
          by_cases hdead : st2.hp - (d0 : Int) ≤ 0
          · rw [if_pos hdead]
            set w1 : DamageWorld :=
              { w with
                stats := fun y =>
                  if y = x then some { st2 with hp := st2.hp - d0 } else w.stats y,
                log := w.log ++ [nm2 ++ " is dead."],
                alive := fun y => if y = x then false else w.alive y } with hw1
            have hn1 : w1.names e = some nm := hn
            have hs1 : w1.stats e = some st := by
              simp only [hw1]
              simp [hxe]
              exact hs
            obtain ⟨r1, r2⟩ := ih w1 hrestuniq e dmg her nm st hn1 hs1
            have halive : w1.alive e = w.alive e := by
              simp only [hw1]
              simp [hxe]
            refine ⟨r1, ?_⟩
            rw [r2, halive]
          · rw [if_neg hdead]
            set w1 : DamageWorld :=
              { w with
                stats := fun y =>
                  if y = x then some { st2 with hp := st2.hp - d0 } else w.stats y } with hw1
            have hn1 : w1.names e = some nm := hn
            have hs1 : w1.stats e = some st := by
              simp only [hw1]
              simp [hxe]
              exact hs
            have halive : w1.alive e = w.alive e := rfl
            obtain ⟨r1, r2⟩ := ih w1 hrestuniq e dmg her nm st hn1 hs1
            refine ⟨r1, ?_⟩
            rw [r2, halive]

/-- A named entity 0 ("Hero") with combat stats hp 3. -/
def dmgExampleWorld : DamageWorld :=
  { names := fun e => if e = 0 then some "Hero" else none,
    stats := fun e => if e = 0 then some ⟨3, 16, 1, 4⟩ else none,
    alive := fun _ => true,
    log := [] }

/-- C5 witness: hp 3 with drained damage 5 is deleted; hp 3 with drained
damage 2 survives at hp 1. -/
theorem c5_witness :
    ((damageRun [(0, 5)] dmgExampleWorld).stats 0 = some ⟨3 - 5, 16, 1, 4⟩ ∧
      (damageRun [(0, 5)] dmgExampleWorld).alive 0 = false) ∧
    ((damageRun [(0, 2)] dmgExampleWorld).stats 0 = some ⟨3 - 2, 16, 1, 4⟩ ∧
      (damageRun [(0, 2)] dmgExampleWorld).alive 0 = true) := by
  obtain ⟨ha1, ha2⟩ := c5_damage_resolution [(0, 5)] dmgExampleWorld (by decide)
    0 5 (by decide) "Hero" ⟨3, 16, 1, 4⟩ rfl rfl
  obtain ⟨hb1, hb2⟩ := c5_damage_resolution [(0, 2)] dmgExampleWorld (by decide)
    0 2 (by decide) "Hero" ⟨3, 16, 1, 4⟩ rfl rfl
  refine ⟨⟨?_, ?_⟩, ⟨?_, ?_⟩⟩
  · rw [ha1]; decide
  · rw [ha2]; decide
  · rw [hb1]; decide
  · rw [hb2]; decide

/-- Modelled from the spec: the `Index<Point> for WorldMap` implementation
used by the systems as `map[p]` is not among the provided sources; per the
specification the tile array is "indexed by `y*width+x`", so `map[p]` is
slice indexing at `pt_to_idx`, which panics (here `none`) when the flat index
is out of range. -/
def mapIndex (m : WorldMap) (p : Point) : Option TileState :=
  m.tiles.get? (m.pt_to_idx p)

/-- Write one tile's `blocked` flag through the same indexing, as
`MoveResolver::move_entity` (`src/systems/map.rs`) does. -/
def mapSetBlocked (m : WorldMap) (p : Point) (b : Bool) : Option WorldMap :=
  match m.tiles.get? (m.pt_to_idx p) with
  | none => none
  | some t => some { m with tiles := m.tiles.set (m.pt_to_idx p) { t with blocked := b } }

/-- The world state seen by `MoveResolver` (`src/systems/map.rs`): the live
entity list (in join order), the `Player`, `Faction`, `CombatStats`,
`BlocksTile`, `Position`, `TargetedForMelee` and `Viewshed` (dirty flag)
storages, the global player-position resource and the map.  The drained
`WantsToMove` storage is passed into `moveRun` as an explicit list. -/
structure MoveWorld where
  ents : List Nat
  players : Nat → Bool
  factions : Nat → Option Nat
  stats : Nat → Option CombatStats
  blockers : Nat → Bool
  positions : Nat → Option Point
  melee : Nat → Option (List Nat)
  dirty : Nat → Option Bool
  ppos : Point
  map : WorldMap

/-- Whether `v` is picked by the victims join of `MoveResolver::run`: it
carries a faction, a position and combat stats, stands exactly on the move
destination, and belongs to a faction different from the mover's. -/
def victimFilter (w : MoveWorld) (dst : Point) (f1 : Nat) (v : Nat) : Bool :=
  match w.factions v, w.positions v, w.stats v with
  | some f2, some p2, some _ => decide (dst = p2) && decide (f1 ≠ f2)
  | _, _, _ => false

/-- `TargetedForMelee::target` (`src/components/mod.rs`): get-or-insert the
victim's entry and push the attacker onto its `by` list. -/
def registerMelee (att : Nat) (melee : Nat → Option (List Nat)) (v : Nat) :
    Nat → Option (List Nat) :=
  fun y => if y = v then some ((melee v).getD [] ++ [att]) else melee y

/-- Resolution of a single drained move-intent `(e, dst)`
(`MoveResolver::run`, `src/systems/map.rs`).  An unblocked destination moves
the entity (updating the map's blocked flags when the mover blocks its tile,
marking its viewshed dirty, and updating the player-position resource for the
player); a blocked destination leaves the position untouched and, when the
mover has a faction, registers a melee target against every
different-faction combat-capable occupant of the destination tile. -/
def moveStep (w : MoveWorld) (e : Nat) (dst : Point) : Option MoveWorld :=
  match mapIndex w.map dst with
  | none => none
  | some t =>
    if !t.blocked then
      match w.positions e with
      | some p =>
        match
          (if w.blockers e then
            match mapSetBlocked w.map p false with
            | none => none
            | some m1 => mapSetBlocked m1 dst true
          else some w.map) with
        | none => none
        | some m2 =>
          let w1 := { w with
            map := m2,
            positions := fun y => if y = e then some dst else w.positions y }
          let w2 :=
            match w1.dirty e with
            | some _ => { w1 with dirty := fun y => if y = e then some true else w1.dirty y }
            | none => w1
          some (if w.players e then { w2 with ppos := dst } else w2)
      | none => some w
    else
      match w.factions e with
      | some f1 =>
        some { w with
          melee := (w.ents.filter (victimFilter w dst f1)).foldl (registerMelee e) w.melee }
      | none => some w

/-- `MoveResolver::run` over the drained move-intents. -/
def moveRun : List (Nat × Point) → MoveWorld → Option MoveWorld
  | [], w => some w
  | (e, dst) :: rest, w =>
    match moveStep w e dst with
    | none => none
    | some w2 => moveRun rest w2

/-- Folding `registerMelee` over a duplicate-free victim list appends the
attacker exactly once to each victim's list and leaves every other entry
unchanged. -/
theorem foldRegister_spec (att : Nat) :
    ∀ (V : List Nat) (melee : Nat → Option (List Nat)), V.Nodup →
      (∀ v ∈ V, (V.foldl (registerMelee att) melee) v =
        some ((melee v).getD [] ++ [att])) ∧
      (∀ v, v ∉ V → (V.foldl (registerMelee att) melee) v = melee v) := by
  intro V
  induction V with
  | nil => intro melee _; exact ⟨fun v hv => absurd hv (List.not_mem_nil v), fun v _ => rfl⟩
  | cons v0 rest ih =>
    intro melee hnodup
    rw [List.nodup_cons] at hnodup
    obtain ⟨hv0, hrest⟩ := hnodup
    obtain ⟨ih1, ih2⟩ := ih (registerMelee att melee v0) hrest
    rw [List.foldl_cons]
    constructor
    · intro v hv
      rcases List.mem_cons.mp hv with rfl | hvr
      · rw [ih2 v hv0]
        simp [registerMelee]
      · rw [ih1 v hvr]
        have : registerMelee att melee v0 v = melee v := by
          have hne : ¬(v = v0) := fun hc => hv0 (hc ▸ hvr)
          simp [registerMelee, hne]
        rw [this]
    · intro v hv
      have hne : ¬(v = v0) := fun hc => hv (by rw [hc]; exact List.mem_cons_self v0 rest)
      have hvr : v ∉ rest := fun hc => hv (List.mem_cons_of_mem v0 hc)
      rw [ih2 v hvr]
      simp [registerMelee, hne]

/-- C6: a drained move-intent whose destination tile is blocked, issued by a
faction-bearing mover, leaves the entire `Position` storage unchanged and
appends exactly one melee-target registration (mover → occupant) to each
different-faction combat-capable occupant of the destination tile, touching
no other melee entry.  (`spec-modelled`: the `Index<Point>` impl behind
`map[dst]` is reconstructed from the spec as flat `y*width+x` indexing.) -/
theorem c6_blocked_move_redirects (w : MoveWorld) (e : Nat) (dst : Point)
    (t : TileState) (f1 : Nat)
    (hnodup : w.ents.Nodup)
    (ht : mapIndex w.map dst = some t) (hblk : t.blocked = true)
    (hf : w.factions e = some f1) :
    ∃ w2, moveRun [(e, dst)] w = some w2 ∧
      w2.positions = w.positions ∧
      (∀ v ∈ w.ents, ∀ f2, w.factions v = some f2 → f2 ≠ f1 →
        w.positions v = some dst → (w.stats v).isSome →
        w2.melee v = some ((w.melee v).getD [] ++ [e])) ∧
      (∀ v, ¬(v ∈ w.ents ∧ victimFilter w dst f1 v = true) →
        w2.melee v = w.melee v) := by
  have hstep : moveStep w e dst =
      some { w with
        melee := (w.ents.filter (victimFilter w dst f1)).foldl (registerMelee e) w.melee } := by
    simp only [moveStep, ht, hblk, hf]
    rfl
  refine ⟨{ w with
      melee := (w.ents.filter (victimFilter w dst f1)).foldl (registerMelee e) w.melee },
    by simp only [moveRun, hstep], rfl, ?_, ?_⟩
  · intro v hv f2 hf2 hne hpos hstat
    obtain ⟨reg, _⟩ := foldRegister_spec e (w.ents.filter (victimFilter w dst f1))
      w.melee (hnodup.filter _)
    have hvf : victimFilter w dst f1 v = true := by
      obtain ⟨st, hst⟩ := Option.isSome_iff_exists.mp hstat
      simp [victimFilter, hf2, hpos, hst]
      exact fun hc => absurd hc.symm hne
    exact reg v (List.mem_filter.mpr ⟨hv, hvf⟩)
  · intro v hvn
    obtain ⟨_, unreg⟩ := foldRegister_spec e (w.ents.filter (victimFilter w dst f1))
      w.melee (hnodup.filter _)
    exact unreg v (fun hc => hvn (List.mem_filter.mp hc))

/-- A concrete move scenario: mover 0 (faction 0) tries to step onto the
blocked tile `(1, 0)` of a 2-by-2 map, which is occupied by the
combat-capable entity 1 of faction 1. -/
def moveExampleWorld : MoveWorld :=
  { ents := [0, 1],
    players := fun e => decide (e = 0),
    factions := fun e => if e = 0 then some 0 else if e = 1 then some 1 else none,
    stats := fun e =>
      if e = 0 then some ⟨30, 30, 2, 5⟩
      else if e = 1 then some ⟨16, 16, 1, 4⟩
      else none,
    blockers := fun _ => true,
    positions := fun e =>
      if e = 0 then some ⟨0, 0⟩ else if e = 1 then some ⟨1, 0⟩ else none,
    melee := fun _ => none,
    dirty := fun _ => some false,
    ppos := ⟨0, 0⟩,
    map := ⟨2, 2, [floorTile, wallTile, floorTile, floorTile]⟩ }

/-- C6 witness: in the concrete scenario the mover's blocked move leaves the
position storage unchanged and registers exactly one melee target
`0 → 1`. -/
theorem c6_witness :
    ∃ w2, moveRun [(0, ⟨1, 0⟩)] moveExampleWorld = some w2 ∧
      w2.positions = moveExampleWorld.positions ∧
      w2.melee 1 = some [0] := by
  obtain ⟨w2, hrun, hpos, hreg, _⟩ :=
    c6_blocked_move_redirects moveExampleWorld 0 ⟨1, 0⟩ wallTile 0
      (by decide) rfl rfl rfl
  refine ⟨w2, hrun, hpos, ?_⟩
  have hr := hreg 1 (by decide) 1 rfl (by decide) rfl (by decide)
  rw [hr]
  rfl

/-- The world state seen by `ItemUsageResolver` (`src/systems/items.rs`): the
`Name`, `Consumable`, `HealsUser` and `CombatStats` storages, liveness
(deletion via `entities.delete`), and the combat log.  `Consumable` is the
field-less tag component the resolver queries with `contains`; its
declaration is not among the provided sources, so membership is the whole of
its modelled content.  The drained `WantsToUseItem` storage is passed in as
an explicit `(user, item)` list. -/
structure ItemWorld where
  names : Nat → Option String
  consumable : Nat → Bool
  heals : Nat → Option Int
  stats : Nat → Option CombatStats
  alive : Nat → Bool
  log : List String

/-- `ItemUsageResolver::run` (`src/systems/items.rs`): for each drained
use-intent, when the item heals and the user has combat stats, raise the
user's hp by the heal amount capped at `max_hp` and log the use; then,
regardless of whether any healing happened, delete the item when it carries
the `Consumable` tag. -/
def itemRun : List (Nat × Nat) → ItemWorld → ItemWorld
  | [], w => w
  | (who, what) :: rest, w =>
    let w1 :=
      match w.stats who, w.heals what with
      | some st, some amt =>
        { w with
          stats := fun y =>
            if y = who then some { st with hp := min st.maxHp (st.hp + amt) }
            else w.stats y,
          log := w.log ++
            ["You use the " ++ ((w.names what).getD "item") ++ ", healing " ++
              toString amt ++ " hp."] }
      | _, _ => w
    let w2 :=
      if w.consumable what then
        { w1 with alive := fun y => if y = what then false else w1.alive y }
      else w1
    itemRun rest w2

/-- C10: for a drained use-item intent, the item is deleted exactly when it
carries the `Consumable` tag — even when no healing is applied because the
user lacks `CombatStats` or the item has no healing effect — and the user's
hp is raised (capped at `max_hp`) exactly when the item heals and the user
has combat stats, being left untouched otherwise. -/
theorem c10_item_usage (w : ItemWorld) (who what : Nat) :
    ((itemRun [(who, what)] w).alive what =
      if w.consumable what then false else w.alive what) ∧
    ((itemRun [(who, what)] w).stats who =
      match w.stats who, w.heals what with
      | some st, some amt => some { st with hp := min st.maxHp (st.hp + amt) }
      | _, _ => w.stats who) := by
  cases hs : w.stats who with
  | none =>
    cases hh : w.heals what with
    | none =>
      by_cases hc : w.consumable what <;>
        simp [itemRun, hs, hh, hc]
    | some amt =>
      by_cases hc : w.consumable what <;>
        simp [itemRun, hs, hh, hc]
  | some st =>
    cases hh : w.heals what with
    | none =>
      by_cases hc : w.consumable what <;>
        simp [itemRun, hs, hh, hc]
    | some amt =>
      by_cases hc : w.consumable what <;>
        simp [itemRun, hs, hh, hc]

end Mistery
